import Mathlib

/-!
Verification development for the archive-upload server in src/server.js.

The server accepts a zip upload, extracts it beneath a per-upload directory,
locates a servable index.html, lists recent uploads, and periodically removes
old upload directories.  Paths are modelled at two levels:

* raw declared entry paths are lists of characters (the attacker-controlled
  strings coming out of the zip parser);
* filesystem locations are lists of path components (a component is a list of
  characters), so that Node's path.join / path.dirname on already-normalized
  absolute paths become list append / List.dropLast.

The server runs path operations through Node's POSIX path module, so
path.isAbsolute is a leading-slash test and path.join(outDir, p) resolves
"." and ".." components of p against outDir.  JavaScript string and mtime
values are modelled with lists of characters and integers respectively.
-/

namespace Filpbook

/-- One path component (a file or directory name), as a list of characters. -/
abbrev Name := List Char

/-- A filesystem location, as the list of its path components. -/
abbrev FsPath := List Name

/-- Entry kind reported by the zip parser (entry.type in server.js). -/
inductive EntryKind where
  | file
  | directory
deriving DecidableEq

/-- One archive entry: the declared (attacker-controlled) path and its kind. -/
structure ZipEntry where
  path : List Char
  kind : EntryKind
deriving DecidableEq

/-- entry.path.replace "backslash" "slash" (server.js line 64): every
backslash becomes a forward slash. -/
def normSeps (p : List Char) : List Char :=
  p.map (fun c => if c = '\\' then '/' else c)

/-- POSIX path.isAbsolute (server.js line 66): the path starts with a slash. -/
def isAbsolutePath (p : List Char) : Bool :=
  p.head? == some '/'

/-- Does pat occur at the very start of l? (helper for the substring test) -/
def startsWith : List Char → List Char → Bool
  | [], _ => true
  | _ :: _, [] => false
  | p :: ps, c :: cs => p == c && startsWith ps cs

/-- JavaScript entryPath.includes(pat): pat occurs somewhere in l as a
contiguous substring (server.js line 66). -/
def containsSub (pat : List Char) : List Char → Bool
  | [] => pat.isEmpty
  | c :: cs => startsWith pat (c :: cs) || containsSub pat cs

/-- The two-character parent-traversal marker. -/
def dotdot : Name := ['.', '.']

/-- The zip-slip check of server.js line 66, applied to the
separator-normalized entry path: reject when the path contains ".." as a
substring or is absolute. -/
def rejectsPath (p : List Char) : Bool :=
  containsSub dotdot p || isAbsolutePath p

/-- Whether the stream entry handler drains and skips this entry. -/
def entryRejected (e : ZipEntry) : Bool :=
  rejectsPath (normSeps e.path)

/-- Split a character list at slashes; segments may be empty (for leading,
trailing or doubled slashes). -/
def splitSlash : List Char → List Name
  | [] => [[]]
  | c :: cs =>
    if c = '/' then [] :: splitSlash cs
    else
      match splitSlash cs with
      | [] => [[c]]
      | s :: ss => (c :: s) :: ss

/-- Node path normalization of a relative path, at segment level: split at
slashes and drop empty and "." components. -/
def cleanSegs (p : List Char) : List Name :=
  (splitSlash p).filter (fun s => !s.isEmpty && s != ['.'])

/-- Node path.join's ".." resolution: a ".." component removes the previously
accumulated component. -/
def resolveSegs (acc : List Name) : List Name → List Name
  | [] => acc
  | s :: rest =>
    if s = dotdot then resolveSegs acc.dropLast rest
    else resolveSegs (acc ++ [s]) rest

/-- path.join(outDir, entryPath) for a relative entryPath (server.js line 71),
at segment level. -/
def joinRel (root : FsPath) (p : List Char) : FsPath :=
  resolveSegs root (cleanSegs p)

/-- The file write performed by the entry handler for one entry, if any
(server.js lines 66-80): rejected entries and directory entries write no
file; an accepted file entry streams to path.join(outDir, entryPath). -/
def entryWrite (root : FsPath) (e : ZipEntry) : Option FsPath :=
  if entryRejected e then none
  else
    match e.kind with
    | .directory => none
    | .file => some (joinRel root (normSeps e.path))

/-- The recursive-mkdir call performed for one entry, if any (server.js lines
72-74): for every accepted entry the handler creates path.dirname(destPath),
the parent chain of the join target. -/
def entryMkdir (root : FsPath) (e : ZipEntry) : Option FsPath :=
  if entryRejected e then none
  else some ((joinRel root (normSeps e.path)).dropLast)

/-- All file write targets produced by extracting the archive's entries. -/
def extractFiles (root : FsPath) (es : List ZipEntry) : List FsPath :=
  es.filterMap (entryWrite root)

/-- All recursive-mkdir targets produced by extracting the archive's entries. -/
def extractMkdirs (root : FsPath) (es : List ZipEntry) : List FsPath :=
  es.filterMap (entryMkdir root)

/-- Segment-wise prefix test: does location d lie on the chain from the
filesystem root down to p? -/
def isUnder : FsPath → FsPath → Bool
  | [], _ => true
  | _ :: _, [] => false
  | d :: ds, p :: ps => d == p && isUnder ds ps

/-- After extraction, directory d exists iff some recursive-mkdir call had a
target at or below d (mkdirSync with recursive also creates all ancestors). -/
def dirEnsured (root : FsPath) (es : List ZipEntry) (d : FsPath) : Bool :=
  (extractMkdirs root es).any (fun t => isUnder d t)

/-- The claim's notion of an unsafe declared path: after separator
normalization the segment sequence contains a ".." traversal segment, or the
path is absolute. -/
def unsafeDeclB (e : ZipEntry) : Bool :=
  decide (dotdot ∈ cleanSegs (normSeps e.path)) || isAbsolutePath (normSeps e.path)

/-- PathSanitizer as worded in the specification: reject exactly when the
separator-normalized path is absolute, is empty after normalization, or has a
".." component in its normalized segment sequence (after collapsing "."
segments).  Written from the spec's words, for comparison with the code's
check rejectsPath. -/
def specSanitizerRejects (raw : List Char) : Bool :=
  let p := normSeps raw
  isAbsolutePath p || (cleanSegs p).isEmpty || decide (dotdot ∈ cleanSegs p)

/-! ### Basic lemmas about the path model -/

theorem startsWith_iff (p : List Char) :
    ∀ l, startsWith p l = true ↔ p <+: l := by
  induction p with
  | nil => intro l; simp [startsWith]
  | cons x xs ih =>
    intro l
    cases l with
    | nil => simp [startsWith]
    | cons c cs =>
      simp only [startsWith, Bool.and_eq_true, beq_iff_eq, ih, List.cons_prefix_cons]

theorem containsSub_iff (pat : List Char) :
    ∀ l, containsSub pat l = true ↔ pat <:+: l := by
  intro l
  induction l with
  | nil => simp [containsSub, List.isEmpty_iff]
  | cons c cs ih =>
    simp only [containsSub, Bool.or_eq_true, startsWith_iff, ih, List.infix_cons_iff]

theorem splitSlash_ne_nil (l : List Char) : splitSlash l ≠ [] := by
  cases l with
  | nil => simp [splitSlash]
  | cons c cs =>
    simp only [splitSlash]
    split
    · simp
    · split <;> simp

theorem splitSlash_head_prefix :
    ∀ (l : List Char) (s : Name) (ss : List Name), splitSlash l = s :: ss → s <+: l := by
  intro l
  induction l with
  | nil =>
    intro s ss h
    simp only [splitSlash, List.cons.injEq] at h
    exact h.1 ▸ List.nil_prefix
  | cons c cs ih =>
    intro s ss h
    simp only [splitSlash] at h
    split at h
    · obtain ⟨rfl, _⟩ := List.cons.injEq .. |>.mp h
      exact List.nil_prefix
    · rcases hsp : splitSlash cs with _ | ⟨s2, ss2⟩
      · exact absurd hsp (splitSlash_ne_nil cs)
      · rw [hsp] at h
        obtain ⟨rfl, _⟩ := List.cons.injEq .. |>.mp h
        exact List.cons_prefix_cons.mpr ⟨rfl, ih s2 ss2 hsp⟩

theorem mem_splitSlash_sub :
    ∀ (l : List Char) (s : Name), s ∈ splitSlash l → s <:+: l := by
  intro l
  induction l with
  | nil =>
    intro s hs
    simp only [splitSlash, List.mem_singleton] at hs
    exact hs ▸ List.nil_infix
  | cons c cs ih =>
    intro s hs
    simp only [splitSlash] at hs
    split at hs
    · rcases List.mem_cons.mp hs with rfl | hmem
      · exact List.nil_infix
      · exact List.infix_cons_iff.mpr (Or.inr (ih s hmem))
    · rcases hsp : splitSlash cs with _ | ⟨s2, ss2⟩
      · exact absurd hsp (splitSlash_ne_nil cs)
      · rw [hsp] at hs
        rcases List.mem_cons.mp hs with rfl | hmem
        · exact (List.cons_prefix_cons.mpr
            ⟨rfl, splitSlash_head_prefix cs s2 ss2 hsp⟩).isInfix
        · exact List.infix_cons_iff.mpr
            (Or.inr (ih s (hsp ▸ List.mem_cons_of_mem s2 hmem)))

theorem rejects_of_dotdot_mem {p : List Char} (h : dotdot ∈ cleanSegs p) :
    rejectsPath p = true := by
  have hmem : dotdot ∈ splitSlash p := List.mem_of_mem_filter h
  have hinf : dotdot <:+: p := mem_splitSlash_sub p dotdot hmem
  simp only [rejectsPath, Bool.or_eq_true]
  exact Or.inl ((containsSub_iff dotdot p).mpr hinf)

theorem no_dotdot_of_accepted {p : List Char} (h : rejectsPath p = false) :
    ∀ s ∈ cleanSegs p, s ≠ dotdot := by
  intro s hs heq
  subst heq
  exact absurd (rejects_of_dotdot_mem hs) (by simp [h])

theorem resolveSegs_no_dotdot :
    ∀ (segs : List Name), (∀ s ∈ segs, s ≠ dotdot) →
      ∀ acc, resolveSegs acc segs = acc ++ segs := by
  intro segs
  induction segs with
  | nil => intro _ acc; simp [resolveSegs]
  | cons s rest ih =>
    intro h acc
    have hs : s ≠ dotdot := h s (List.mem_cons_self s rest)
    simp only [resolveSegs, if_neg hs]
    rw [ih (fun t ht => h t (List.mem_cons_of_mem s ht))]
    simp

theorem joinRel_accepted {p : List Char} (root : FsPath)
    (h : rejectsPath p = false) :
    joinRel root p = root ++ cleanSegs p :=
  resolveSegs_no_dotdot (cleanSegs p) (no_dotdot_of_accepted h) root

theorem isUnder_iff : ∀ (d p : FsPath), isUnder d p = true ↔ d <+: p := by
  intro d
  induction d with
  | nil => intro p; simp [isUnder]
  | cons x xs ih =>
    intro p
    cases p with
    | nil => simp [isUnder]
    | cons c cs =>
      simp only [isUnder, Bool.and_eq_true, beq_iff_eq, ih, List.cons_prefix_cons]

theorem mem_extractFiles_shape {root : FsPath} {es : List ZipEntry} {w : FsPath}
    (h : w ∈ extractFiles root es) :
    ∃ e ∈ es, entryRejected e = false ∧ e.kind = .file ∧
      w = root ++ cleanSegs (normSeps e.path) := by
  obtain ⟨e, hmem, hw⟩ := List.mem_filterMap.mp h
  unfold entryWrite at hw
  split at hw
  · exact absurd hw (by simp)
  · rename_i hrej
    rcases hk : e.kind with _ | _
    · refine ⟨e, hmem, by simpa using hrej, hk, ?_⟩
      rw [hk] at hw
      simp only [Option.some.injEq] at hw
      rw [← hw, joinRel_accepted root (by simpa using hrej)]
    · rw [hk] at hw; exact absurd hw (by simp)

theorem mem_extractFiles_of_accepted {root : FsPath} {es : List ZipEntry} {e : ZipEntry}
    (hmem : e ∈ es) (hacc : entryRejected e = false) (hk : e.kind = .file) :
    joinRel root (normSeps e.path) ∈ extractFiles root es :=
  List.mem_filterMap.mpr ⟨e, hmem, by simp [entryWrite, hacc, hk]⟩

theorem unsafe_entry_rejected {e : ZipEntry} (hu : unsafeDeclB e = true) :
    entryRejected e = true := by
  simp only [unsafeDeclB, Bool.or_eq_true, decide_eq_true_eq] at hu
  rcases hu with hmem | habs
  · exact rejects_of_dotdot_mem hmem
  · simp only [entryRejected, rejectsPath, Bool.or_eq_true]
    exact Or.inr habs

/-! ### C1: unsafe entries are skipped; every write stays under the root -/

/-- C1: for every archive entry whose declared path (after separator
normalization) contains a ".." traversal segment or is absolute, extraction
writes no file outside the upload's target root: the unsafe entry is drained
and skipped, so the archive extracts exactly as if that entry were absent,
every file write target lies under the root, and every entry the handler
accepts (of kind File) still gets its file written. -/
theorem c1_zip_slip_safety (root : FsPath) (pre post : List ZipEntry) (e : ZipEntry)
    (hu : unsafeDeclB e = true) :
    extractFiles root (pre ++ e :: post) = extractFiles root (pre ++ post) ∧
    (∀ w ∈ extractFiles root (pre ++ e :: post), isUnder root w = true) ∧
    (∀ e2 ∈ pre ++ e :: post, entryRejected e2 = false → e2.kind = .file →
      joinRel root (normSeps e2.path) ∈ extractFiles root (pre ++ e :: post)) := by
  have hrej : entryRejected e = true := unsafe_entry_rejected hu
  refine ⟨?_, ?_, ?_⟩
  · simp only [extractFiles, List.filterMap_append, List.filterMap_cons]
    rw [show entryWrite root e = none by simp [entryWrite, hrej]]
  · intro w hw
    obtain ⟨e2, _, _, _, hshape⟩ := mem_extractFiles_shape hw
    rw [hshape, isUnder_iff]
    exact List.prefix_append root _
  · intro e2 hmem hacc hk
    exact mem_extractFiles_of_accepted hmem hacc hk

/-- Witness for c1_zip_slip_safety at a concrete archive: the root is the
single component "u", the archive holds the traversal entry "../x" followed by
the honest file entry "a". -/
theorem c1_zip_slip_safety_witness :
    unsafeDeclB ⟨['.', '.', '/', 'x'], EntryKind.file⟩ = true ∧
    (extractFiles [['u']]
        ([] ++ ⟨['.', '.', '/', 'x'], EntryKind.file⟩ :: [⟨['a'], EntryKind.file⟩]) =
      extractFiles [['u']] ([] ++ [⟨['a'], EntryKind.file⟩]) ∧
    (∀ w ∈ extractFiles [['u']]
        ([] ++ ⟨['.', '.', '/', 'x'], EntryKind.file⟩ :: [⟨['a'], EntryKind.file⟩]),
      isUnder [['u']] w = true) ∧
    (∀ e2 ∈ [] ++ ⟨['.', '.', '/', 'x'], EntryKind.file⟩ :: [⟨['a'], EntryKind.file⟩],
      entryRejected e2 = false → e2.kind = .file →
      joinRel [['u']] (normSeps e2.path) ∈ extractFiles [['u']]
        ([] ++ ⟨['.', '.', '/', 'x'], EntryKind.file⟩ :: [⟨['a'], EntryKind.file⟩]))) :=
  ⟨by decide, c1_zip_slip_safety [['u']] [] [⟨['a'], EntryKind.file⟩] _ (by decide)⟩

/-! ### C2: the sanitizer is a substring check, not a segment check -/

/-- C2 counterexample: the relative filename "a..b.txt" has no ".." segment in
its normalized segment sequence and is not absolute, so the claim says it is
accepted; the code's substring check rejects it.  (The empty path diverges the
other way: the spec-worded sanitizer rejects it, the code accepts it.) -/
theorem c2_counterexample :
    specSanitizerRejects ['a', '.', '.', 'b', '.', 't', 'x', 't'] = false ∧
    rejectsPath (normSeps ['a', '.', '.', 'b', '.', 't', 'x', 't']) = true ∧
    specSanitizerRejects [] = true ∧
    rejectsPath (normSeps []) = false := by decide

/-- C2 amended: the entry check rejects a candidate path exactly when the
separator-normalized path contains ".." as a contiguous substring or is
absolute.  It is a substring match, so every path with a ".." traversal
segment is rejected, but so are harmless names such as "a..b.txt"; the empty
path is not rejected. -/
theorem c2_sanitizer_substring (raw : List Char) :
    (rejectsPath (normSeps raw) = true ↔
      dotdot <:+: normSeps raw ∨ isAbsolutePath (normSeps raw) = true) ∧
    (dotdot ∈ cleanSegs (normSeps raw) → rejectsPath (normSeps raw) = true) := by
  constructor
  · simp only [rejectsPath, Bool.or_eq_true, containsSub_iff]
  · exact rejects_of_dotdot_mem

/-- Witness for c2_sanitizer_substring: the declared path "../x" has a ".."
segment and is indeed rejected. -/
theorem c2_sanitizer_substring_witness :
    rejectsPath (normSeps ['.', '.', '/', 'x']) = true :=
  (c2_sanitizer_substring ['.', '.', '/', 'x']).2 (by decide)

/-! ### C8: Directory entries only get their parent created -/

/-- C8 counterexample: the accepted Directory entry "sub/" leads to
mkdirSync(path.dirname(outDir/sub)) = mkdirSync(outDir), so with the root at
component "r" the declared directory r/sub is never created: no mkdir target
lies at or below it, even though the entry was accepted and of kind
Directory. -/
theorem c8_counterexample :
    entryRejected ⟨['s', 'u', 'b', '/'], EntryKind.directory⟩ = false ∧
    dirEnsured [['r']] [⟨['s', 'u', 'b', '/'], EntryKind.directory⟩]
      [['r'], ['s', 'u', 'b']] = false := by decide

/-- C8 amended: for every accepted entry (Directory entries included) the
extractor runs a recursive mkdir of the parent of the join target — dropping
the last component of path.join(outDir, entryPath) — so that parent directory
and all its ancestors exist; the declared directory itself is not created by
a Directory entry. -/
theorem c8_parent_dir_created (root : FsPath) (es : List ZipEntry) (e : ZipEntry)
    (hmem : e ∈ es) (hacc : entryRejected e = false) :
    (joinRel root (normSeps e.path)).dropLast ∈ extractMkdirs root es ∧
    (∀ d, isUnder d ((joinRel root (normSeps e.path)).dropLast) = true →
      dirEnsured root es d = true) := by
  have htarget : (joinRel root (normSeps e.path)).dropLast ∈ extractMkdirs root es :=
    List.mem_filterMap.mpr ⟨e, hmem, by simp [entryMkdir, hacc]⟩
  refine ⟨htarget, fun d hd => ?_⟩
  simp only [dirEnsured, List.any_eq_true]
  exact ⟨_, htarget, hd⟩

/-- Witness for c8_parent_dir_created: extracting the single accepted
Directory entry "a/b/" creates the parent r/a of the declared directory. -/
theorem c8_parent_dir_created_witness :
    (⟨['a', '/', 'b', '/'], EntryKind.directory⟩ : ZipEntry) ∈
      [(⟨['a', '/', 'b', '/'], EntryKind.directory⟩ : ZipEntry)] ∧
    entryRejected ⟨['a', '/', 'b', '/'], EntryKind.directory⟩ = false ∧
    (joinRel [['r']] (normSeps ['a', '/', 'b', '/'])).dropLast ∈
      extractMkdirs [['r']] [⟨['a', '/', 'b', '/'], EntryKind.directory⟩] :=
  ⟨by decide, by decide,
    (c8_parent_dir_created [['r']] [⟨['a', '/', 'b', '/'], EntryKind.directory⟩]
      ⟨['a', '/', 'b', '/'], EntryKind.directory⟩ (by decide) (by decide)).1⟩

/-! ### The entry locator: walk (server.js lines 92-103)

The extracted directory tree is modelled with node names and, for
directories, the list of children in the order fs.readdirSync returns them:
the walk's visiting order is exactly this list order. -/

/-- A node of the extracted directory tree.  The children list of a dir node
is in readdirSync enumeration order. -/
inductive FsNode where
  | file (name : Name)
  | dir (name : Name) (children : List FsNode)

/-- The designated entry filename, "index.html". -/
def indexHtml : Name := ['i', 'n', 'd', 'e', 'x', '.', 'h', 't', 'm', 'l']

/-- f.name.toLowerCase() === "index.html" (server.js line 96), for ASCII
names: JavaScript toLowerCase agrees with per-character Char.toLower there. -/
def isIndexName (n : Name) : Bool :=
  n.map Char.toLower == indexHtml

/-- The walk of server.js lines 92-103 over a children list: visit the
entries in list order; a file whose lowercased name is "index.html" is
returned at once; a directory is searched recursively and its result, if any,
is returned prefixed with the directory's name.  The code returns an absolute
path and later path.relative's it against the root; this function returns
that relative component list directly. -/
def walkList : List FsNode → Option (List Name)
  | [] => none
  | .file n :: rest => if isIndexName n then some [n] else walkList rest
  | .dir n cs :: rest =>
    match walkList cs with
    | some p => some (n :: p)
    | none => walkList rest

/-- Is there a file node with lowercased name "index.html" anywhere in the
tree?  (Directory names are never consulted.) -/
def hasIndexFile : List FsNode → Bool
  | [] => false
  | .file n :: rest => isIndexName n || hasIndexFile rest
  | .dir _ cs :: rest => hasIndexFile cs || hasIndexFile rest

/-- All matches of the walk, in depth-first left-to-right visiting order. -/
def dfsMatches : List FsNode → List (List Name)
  | [] => []
  | .file n :: rest => (if isIndexName n then [[n]] else []) ++ dfsMatches rest
  | .dir n cs :: rest => (dfsMatches cs).map (fun p => n :: p) ++ dfsMatches rest

/-! ### C9: what the walk matches -/

/-- C9: the walk finds something exactly when some file node, anywhere in the
tree, has a name equal to "index.html" up to letter case; a file node whose
name matches in any letter case is returned on the spot; a directory node —
whatever its name, "index.html" included — with no matching file below it is
never a match and the walk moves past it. -/
theorem c9_locator_match_semantics :
    (∀ cs, (walkList cs).isSome = hasIndexFile cs) ∧
    (∀ n rest, isIndexName n = true → walkList (FsNode.file n :: rest) = some [n]) ∧
    (∀ n cs rest, hasIndexFile cs = false →
      walkList (FsNode.dir n cs :: rest) = walkList rest) := by
  have hmain : ∀ cs, (walkList cs).isSome = hasIndexFile cs := by
    intro cs
    induction cs using walkList.induct with
    | case1 => simp [walkList, hasIndexFile]
    | case2 n rest hidx =>
      simp [walkList, hasIndexFile, hidx]
    | case3 n rest hidx ih =>
      have h' : isIndexName n = false := by simpa using hidx
      simp [walkList, hasIndexFile, h', ih]
    | case4 n cs rest p hp ih =>
      simp [walkList, hasIndexFile, hp, ← ih]
    | case5 n cs rest hp ih1 ih2 =>
      simp [walkList, hasIndexFile, hp, ← ih1, ← ih2]
  refine ⟨hmain, ?_, ?_⟩
  · intro n rest hidx
    simp [walkList, hidx]
  · intro n cs rest hcs
    have : walkList cs = none := by
      have := hmain cs
      rw [hcs] at this
      exact Option.not_isSome_iff_eq_none.mp (by simp [this])
    simp [walkList, this]

/-- Witness for c9_locator_match_semantics: the upper-case file "INDEX.HTML"
matches at once, and a childless directory literally named "index.html" is
skipped. -/
theorem c9_locator_match_semantics_witness :
    isIndexName ['I', 'N', 'D', 'E', 'X', '.', 'H', 'T', 'M', 'L'] = true ∧
    walkList [FsNode.file ['I', 'N', 'D', 'E', 'X', '.', 'H', 'T', 'M', 'L']] =
      some [['I', 'N', 'D', 'E', 'X', '.', 'H', 'T', 'M', 'L']] ∧
    hasIndexFile [] = false ∧
    walkList [FsNode.dir indexHtml []] = walkList [] :=
  ⟨by decide,
    c9_locator_match_semantics.2.1 _ [] (by decide),
    by simp [hasIndexFile],
    c9_locator_match_semantics.2.2 indexHtml [] [] (by simp [hasIndexFile])⟩

/-! ### C6: the walk's first match is an enumeration-order artifact -/

/-- C6 counterexample: two directory trees with the same contents — the
children lists are permutations of one another, element for element — give
different first matches: with the subdirectory "a" enumerated first the walk
returns a/index.html, with the root file enumerated first it returns
index.html.  The result is therefore not determined by the tree's contents
alone, and the claimed lexicographic order is not what the code does (under
name-lexicographic order both trees would give a/index.html). -/
theorem c6_counterexample :
    List.Perm
      [FsNode.dir ['a'] [FsNode.file indexHtml], FsNode.file indexHtml]
      [FsNode.file indexHtml, FsNode.dir ['a'] [FsNode.file indexHtml]] ∧
    walkList [FsNode.dir ['a'] [FsNode.file indexHtml], FsNode.file indexHtml] ≠
      walkList [FsNode.file indexHtml, FsNode.dir ['a'] [FsNode.file indexHtml]] := by
  have hidx : isIndexName indexHtml = true := by decide
  constructor
  · exact List.Perm.swap _ _ _
  · have h1 : walkList [FsNode.dir ['a'] [FsNode.file indexHtml], FsNode.file indexHtml]
        = some [['a'], indexHtml] := by
      simp [walkList, hidx]
    have h2 : walkList [FsNode.file indexHtml, FsNode.dir ['a'] [FsNode.file indexHtml]]
        = some [indexHtml] := by
      simp [walkList, hidx]
    rw [h1, h2]
    decide

/-- C6 amended: the walk's traversal order is the readdirSync enumeration
order as given by the children lists, not a lexicographic one; the returned
path is the head of the list of all matches in depth-first left-to-right
order of that enumeration.  For a fixed enumeration the outcome is a function
of the ordered tree, but permuting the enumeration of the same contents can
change which match is first. -/
theorem c6_walk_first_of_enumeration_order (cs : List FsNode) :
    walkList cs = (dfsMatches cs).head? := by
  induction cs using walkList.induct with
  | case1 => simp [walkList, dfsMatches]
  | case2 n rest hidx =>
    simp [walkList, dfsMatches, hidx]
  | case3 n rest hidx ih =>
    have h' : isIndexName n = false := by simpa using hidx
    simp [walkList, dfsMatches, h', ih]
  | case4 n cs rest p hp ih =>
    rcases hm : dfsMatches cs with _ | ⟨q, qs⟩
    · rw [hm, hp] at ih; simp at ih
    · rw [hm, hp] at ih
      simp only [List.head?_cons, Option.some.injEq] at ih
      simp [walkList, dfsMatches, hp, hm, ih]
  | case5 n cs rest hp ih1 ih2 =>
    have hnil : dfsMatches cs = [] := by
      rw [hp] at ih1
      exact List.head?_eq_none_iff.mp ih1.symm
    simp [walkList, dfsMatches, hp, hnil, ih2]

/-! ### GET /recent (server.js lines 131-139)

The handler readdirs the upload directory, stats every name (a throwing stat
drops that entry), sorts by the stat's mtimeMs descending, and keeps the
first 50.  A DirEnt models one name of that listing together with what
statSync would report for it now; createdMs is the upload's recorded creation
time, which the code never reads — it is carried only so that the spec's
"timestamp derived purely from recorded creation time" can be stated and
compared against what the code does. -/

/-- One name under the upload directory at list time. -/
structure DirEnt where
  name : Name
  mtimeMs : Int
  createdMs : Int
  statFails : Bool
deriving DecidableEq

/-- One element of the JSON array returned by GET /recent. -/
structure RecentItem where
  id : Name
  mtime : Int
  url : List Char
deriving DecidableEq

/-- The fixed url prefix "/play/". -/
def playPrefix : List Char := ['/', 'p', 'l', 'a', 'y', '/']

/-- The url built at server.js line 135: "/play/" + name + "/index.html". -/
def recentUrl (id : Name) : List Char :=
  playPrefix ++ id ++ '/' :: indexHtml

/-- The map step of lines 132-136: a failing stat yields null (dropped by
filter(Boolean)); otherwise the item carries the stat's current mtimeMs. -/
def statItem (e : DirEnt) : Option RecentItem :=
  if e.statFails then none else some ⟨e.name, e.mtimeMs, recentUrl e.name⟩

/-- The sort comparator (a,b) => b.mtime - a.mtime: a before b when b.mtime ≤
a.mtime, i.e. descending mtime (Array.prototype.sort is stable in Node). -/
def mtimeDesc (a b : RecentItem) : Bool :=
  decide (b.mtime ≤ a.mtime)

/-- GET /recent: map, drop failed stats, sort descending by mtime, take 50. -/
def listRecent (ents : List DirEnt) : List RecentItem :=
  ((ents.filterMap statItem).mergeSort mtimeDesc).take 50

/-- Modelled from the spec: listRecent as the spec words it, deriving each
item's timestamp purely from the Upload's recorded creation time instead of
re-reading the filesystem mtime.  For comparison with listRecent. -/
def listRecentSpecModel (ents : List DirEnt) : List RecentItem :=
  ((ents.filterMap (fun e =>
      if e.statFails then none
      else some ⟨e.name, e.createdMs, recentUrl e.name⟩)).mergeSort mtimeDesc).take 50

theorem mem_listRecent_shape {ents : List DirEnt} {it : RecentItem}
    (h : it ∈ listRecent ents) :
    ∃ e ∈ ents, e.statFails = false ∧ it = ⟨e.name, e.mtimeMs, recentUrl e.name⟩ := by
  have h1 : it ∈ (ents.filterMap statItem).mergeSort mtimeDesc :=
    (List.take_sublist 50 _).mem h
  have h2 : it ∈ ents.filterMap statItem :=
    (List.mergeSort_perm (ents.filterMap statItem) mtimeDesc).mem_iff.mp h1
  obtain ⟨e, hmem, he⟩ := List.mem_filterMap.mp h2
  unfold statItem at he
  split at he
  · exact absurd he (by simp)
  · rename_i hfail
    exact ⟨e, hmem, by simpa using hfail, by simpa using he.symm⟩

/-! ### C5: /recent re-reads filesystem mtimes -/

/-- C5 counterexample: a single upload directory whose recorded creation time
is 5 but whose filesystem mtime now reads 10 (directory mtime changes on
writes into it).  The code lists it with timestamp 10, the spec-worded
listing with timestamp 5: the listed timestamp is the re-read filesystem
mtime, not the recorded creation time. -/
theorem c5_counterexample :
    listRecent [⟨['a'], 10, 5, false⟩] =
      [⟨['a'], 10, recentUrl ['a']⟩] ∧
    listRecentSpecModel [⟨['a'], 10, 5, false⟩] =
      [⟨['a'], 5, recentUrl ['a']⟩] ∧
    listRecent [⟨['a'], 10, 5, false⟩] ≠ listRecentSpecModel [⟨['a'], 10, 5, false⟩] := by
  have h1 : listRecent [⟨['a'], 10, 5, false⟩] = [⟨['a'], 10, recentUrl ['a']⟩] := by
    simp [listRecent, statItem, List.mergeSort_singleton]
  have h2 : listRecentSpecModel [⟨['a'], 10, 5, false⟩] =
      [⟨['a'], 5, recentUrl ['a']⟩] := by
    simp [listRecentSpecModel, List.mergeSort_singleton]
  refine ⟨h1, h2, ?_⟩
  rw [h1, h2]
  simp

/-- C5 amended: GET /recent returns at most 50 items, ordered newest-first by
the timestamps it carries, and each item's id, timestamp and url come from
one successfully stat'ed name of the upload directory listing, the timestamp
being that stat's current mtimeMs — not a recorded creation time. -/
theorem c5_recent_list_shape (ents : List DirEnt) :
    (listRecent ents).length ≤ 50 ∧
    (listRecent ents).Pairwise (fun a b => b.mtime ≤ a.mtime) ∧
    (∀ it ∈ listRecent ents, ∃ e ∈ ents, e.statFails = false ∧
      it = ⟨e.name, e.mtimeMs, recentUrl e.name⟩) := by
  refine ⟨?_, ?_, fun it h => mem_listRecent_shape h⟩
  · simp [listRecent]
  · have hsorted : ((ents.filterMap statItem).mergeSort mtimeDesc).Pairwise
        (fun a b => mtimeDesc a b = true) :=
      List.sorted_mergeSort
        (fun a b c hab hbc => by
          simp only [mtimeDesc, decide_eq_true_eq] at *
          exact le_trans hbc hab)
        (fun a b => by
          simp only [mtimeDesc, ← Bool.decide_or, decide_eq_true_eq]
          exact le_total b.mtime a.mtime)
        (ents.filterMap statItem)
    have := hsorted.sublist (List.take_sublist 50 _)
    exact this.imp (fun hab => by simpa [mtimeDesc] using hab)

/-- Witness for c5_recent_list_shape: the single listed item of a one-entry
directory listing carries that entry's current filesystem mtime. -/
theorem c5_recent_list_shape_witness :
    (⟨['a'], 10, recentUrl ['a']⟩ : RecentItem) ∈ listRecent [⟨['a'], 10, 5, false⟩] ∧
    (∃ e ∈ [(⟨['a'], 10, 5, false⟩ : DirEnt)], e.statFails = false ∧
      (⟨['a'], 10, recentUrl ['a']⟩ : RecentItem) =
        ⟨e.name, e.mtimeMs, recentUrl e.name⟩) := by
  have hmem : (⟨['a'], 10, recentUrl ['a']⟩ : RecentItem) ∈
      listRecent [⟨['a'], 10, 5, false⟩] := by
    have h1 : listRecent [⟨['a'], 10, 5, false⟩] = [⟨['a'], 10, recentUrl ['a']⟩] := by
      simp [listRecent, statItem, List.mergeSort_singleton]
    rw [h1]
    exact List.mem_singleton.mpr rfl
  exact ⟨hmem, (c5_recent_list_shape [⟨['a'], 10, 5, false⟩]).2.2 _ hmem⟩

/-! ### The retention sweeper (server.js lines 142-156) -/

/-- The retention window: 24 * 60 * 60 * 1000 milliseconds. -/
def maxAgeMs : Int := 24 * 60 * 60 * 1000

/-- One name under the upload directory at sweep time: its id, the mtimeMs
statSync reports, and whether handling it (stat or rm) throws. -/
structure SweepEnt where
  id : Name
  mtimeMs : Int
  statFails : Bool
deriving DecidableEq

/-- One cleanup cycle over the directory listing, in listing order: the whole
for-loop sits inside one try/catch, so the first throwing candidate aborts
the remainder of the sweep; a non-throwing candidate older than maxAgeMs is
removed, others survive.  Returns the surviving entries. -/
def sweepSurvivors (now : Int) : List SweepEnt → List SweepEnt
  | [] => []
  | e :: rest =>
    if e.statFails then e :: rest
    else if now - e.mtimeMs > maxAgeMs then sweepSurvivors now rest
    else e :: sweepSurvivors now rest

/-! ### C4: one failing candidate aborts the whole sweep -/

/-- C4 counterexample: at sweep time 100000000 the listing holds a candidate
"a" whose stat throws, followed by an over-age candidate "b" (age 100000000 >
86400000).  After the sweep, "b" still exists: the failure on "a" prevented
the deletion of the remaining over-age candidate. -/
theorem c4_counterexample :
    (100000000 : Int) - (⟨['b'], 0, false⟩ : SweepEnt).mtimeMs > maxAgeMs ∧
    (⟨['b'], 0, false⟩ : SweepEnt) ∈
      sweepSurvivors 100000000 [⟨['a'], 0, true⟩, ⟨['b'], 0, false⟩] := by decide

/-- C4 amended: when no candidate of the listing throws, one sweep cycle
removes exactly the over-age directories — every directory older than the
retention window is gone and the rest survive; but the whole loop runs inside
a single try/catch, so the first throwing candidate ends the cycle and every
candidate after it survives untouched, over-age or not (until a later
cycle). -/
theorem c4_sweep_abort_semantics (now : Int) :
    (∀ ents : List SweepEnt, (∀ e ∈ ents, e.statFails = false) →
      sweepSurvivors now ents =
        ents.filter (fun e => decide (now - e.mtimeMs ≤ maxAgeMs))) ∧
    (∀ ents : List SweepEnt, (∀ e ∈ ents, e.statFails = false) →
      ∀ e ∈ ents, now - e.mtimeMs > maxAgeMs → e ∉ sweepSurvivors now ents) ∧
    (∀ (pre : List SweepEnt) (f : SweepEnt) (post : List SweepEnt),
      (∀ e ∈ pre, e.statFails = false) → f.statFails = true →
      sweepSurvivors now (pre ++ f :: post) = sweepSurvivors now pre ++ f :: post) := by
  have hfilter : ∀ ents : List SweepEnt, (∀ e ∈ ents, e.statFails = false) →
      sweepSurvivors now ents =
        ents.filter (fun e => decide (now - e.mtimeMs ≤ maxAgeMs)) := by
    intro ents hok
    induction ents with
    | nil => simp [sweepSurvivors]
    | cons e rest ih =>
      have he : e.statFails = false := hok e (List.mem_cons_self e rest)
      have hrest := ih (fun x hx => hok x (List.mem_cons_of_mem e hx))
      by_cases hage : now - e.mtimeMs > maxAgeMs
      · have hcond : ¬ (now ≤ maxAgeMs + e.mtimeMs) := by omega
        simp [sweepSurvivors, he, hage, hrest, List.filter_cons, hcond]
      · have hcond : now ≤ maxAgeMs + e.mtimeMs := by omega
        simp [sweepSurvivors, he, hage, hrest, List.filter_cons, hcond]
  refine ⟨hfilter, ?_, ?_⟩
  · intro ents hok e hmem hage hsurv
    rw [hfilter ents hok] at hsurv
    have := List.of_mem_filter hsurv
    simp only [decide_eq_true_eq] at this
    exact absurd hage (not_lt.mpr this)
  · intro pre f post hok hf
    induction pre with
    | nil => simp [sweepSurvivors, hf]
    | cons e rest ih =>
      have he : e.statFails = false := hok e (List.mem_cons_self e rest)
      have hrest := ih (fun x hx => hok x (List.mem_cons_of_mem e hx))
      by_cases hage : now - e.mtimeMs > maxAgeMs
      · simp [sweepSurvivors, he, hage, hrest]
      · simp [sweepSurvivors, he, hage, hrest]

/-- Witness for c4_sweep_abort_semantics: a failure-free sweep at time
100000000 removes the over-age entry "b" and keeps the fresh entry "c", and a
listing starting with a throwing candidate survives unchanged past it. -/
theorem c4_sweep_abort_semantics_witness :
    (∀ e ∈ [(⟨['b'], 0, false⟩ : SweepEnt), ⟨['c'], 99999999, false⟩],
      e.statFails = false) ∧
    sweepSurvivors 100000000 [⟨['b'], 0, false⟩, ⟨['c'], 99999999, false⟩] =
      List.filter (fun e => decide ((100000000 : Int) - e.mtimeMs ≤ maxAgeMs))
        [(⟨['b'], 0, false⟩ : SweepEnt), ⟨['c'], 99999999, false⟩] ∧
    sweepSurvivors 100000000 ([] ++ (⟨['a'], 0, true⟩ : SweepEnt) :: [⟨['b'], 0, false⟩]) =
      sweepSurvivors 100000000 [] ++ (⟨['a'], 0, true⟩ : SweepEnt) :: [⟨['b'], 0, false⟩] :=
  ⟨by decide,
    (c4_sweep_abort_semantics 100000000).1 _ (by decide),
    (c4_sweep_abort_semantics 100000000).2.2 [] ⟨['a'], 0, true⟩ [⟨['b'], 0, false⟩]
      (by decide) (by decide)⟩

/-! ### The POST /upload orchestration (server.js lines 50-128)

The handler generates an id, mkdirs the per-upload directory
UPLOAD_DIR/<id>, extracts, walks the extracted tree, and answers.  The
outcome of parsing the uploaded stream is abstracted: either the zip parser
emits 'error' (the awaited promise rejects, landing in the catch block), or
it emits 'close' leaving an extracted tree on disk.  The directories tracked
here are at per-upload granularity. -/

/-- The error answers the handler can produce for a parsed-or-failed upload:
the 400 answer "ZIP must include an index.html file", or the generic catch's
500 answer built from err.message. -/
inductive UploadError where
  | noIndexHtml
  | internalMessage
deriving DecidableEq

/-- What the handler leaves behind: HTTP status, error answered if any,
playUrl answered if any, and the directories existing after the response. -/
structure UploadOutcome where
  status : Nat
  error : Option UploadError
  playUrl : Option (List Char)
  disk : List FsPath
deriving DecidableEq

/-- The two ways the awaited extraction promise can end. -/
inductive ParseResult where
  | errored
  | closed (tree : List FsNode)

/-- The UPLOAD_DIR root, as the single component "uploads". -/
def uploadsDir : FsPath := [['u', 'p', 'l', 'o', 'a', 'd', 's']]

/-- The per-upload directory UPLOAD_DIR/<id>. -/
def outDirOf (id : Name) : FsPath := uploadsDir ++ [id]

/-- "/" ++ "-joined relative components: the code's
path.relative(outDir, foundIndex).split(path.sep).join("/"). -/
def joinSegs : List Name → List Char
  | [] => []
  | [s] => s
  | s :: rest => s ++ '/' :: joinSegs rest

/-- The playUrl of server.js line 115: "/play/" + id + "/" + relIndex. -/
def playUrlOf (id : Name) (rel : List Name) : List Char :=
  playPrefix ++ id ++ '/' :: joinSegs rel

/-- The POST /upload handler after intake (server.js lines 54-127), given the
directories existing beforehand and the parse outcome.  On a parser error the
promise rejects into the catch block: status 500 with err.message and no
cleanup.  On close, the walk decides: no index found means the out directory
is recursively removed and 400 answered; otherwise 200 with the playUrl. -/
def handleUpload (disk0 : List FsPath) (id : Name) (pr : ParseResult) : UploadOutcome :=
  let disk1 := disk0 ++ [outDirOf id]
  match pr with
  | .errored =>
    { status := 500, error := some .internalMessage, playUrl := none, disk := disk1 }
  | .closed tree =>
    match walkList tree with
    | none =>
      { status := 400, error := some .noIndexHtml, playUrl := none,
        disk := disk1.filter (fun p => !(isUnder (outDirOf id) p)) }
    | some rel =>
      { status := 200, error := none, playUrl := some (playUrlOf id rel), disk := disk1 }

/-! ### C3: a bad archive yields 500 and a residual directory -/

/-- C3 counterexample: for an upload whose stream cannot be parsed (the
parser emits 'error'), the response status is not 400 and the freshly created
per-upload directory is still on disk — contradicting the claimed 400 +
cleanup. -/
theorem c3_counterexample :
    ¬ ((handleUpload [] ['g'] .errored).status = 400 ∧
       outDirOf ['g'] ∉ (handleUpload [] ['g'] .errored).disk) := by
  decide

/-- C3 amended: for every upload whose archive stream cannot be parsed, the
rejected promise lands in the generic catch block, which answers HTTP 500
with the error's message; the freshly created per-upload root directory is
not deleted and remains on disk after responding. -/
theorem c3_parse_error_behavior (disk0 : List FsPath) (id : Name) :
    (handleUpload disk0 id .errored).status = 500 ∧
    (handleUpload disk0 id .errored).error = some .internalMessage ∧
    outDirOf id ∈ (handleUpload disk0 id .errored).disk := by
  refine ⟨rfl, rfl, ?_⟩
  simp [handleUpload]

/-! ### C7: no entry document yields 400 and full cleanup -/

/-- C7: when the walk finds no file matching the designated filename in the
extracted tree, the handler answers HTTP 400 with the
ZIP-must-include-an-index.html error, and the upload's root directory is
recursively deleted before responding: afterwards no directory at or below
UPLOAD_DIR/<id> exists. -/
theorem c7_no_entry_document (disk0 : List FsPath) (id : Name) (tree : List FsNode)
    (h : walkList tree = none) :
    (handleUpload disk0 id (.closed tree)).status = 400 ∧
    (handleUpload disk0 id (.closed tree)).error = some .noIndexHtml ∧
    (∀ p ∈ (handleUpload disk0 id (.closed tree)).disk,
      isUnder (outDirOf id) p = false) := by
  refine ⟨by simp [handleUpload, h], by simp [handleUpload, h], ?_⟩
  intro p hp
  simp only [handleUpload, h] at hp
  have := List.of_mem_filter hp
  simpa using this

/-- Witness for c7_no_entry_document: an upload extracting to an empty tree
(no index.html anywhere) answers 400 and removes uploads/g. -/
theorem c7_no_entry_document_witness :
    walkList [] = none ∧
    (handleUpload [] ['g'] (.closed [])).status = 400 ∧
    (handleUpload [] ['g'] (.closed [])).error = some UploadError.noIndexHtml ∧
    (∀ p ∈ (handleUpload [] ['g'] (.closed [])).disk,
      isUnder (outDirOf ['g']) p = false) :=
  ⟨by simp [walkList],
    (c7_no_entry_document [] ['g'] [] (by simp [walkList])).1,
    (c7_no_entry_document [] ['g'] [] (by simp [walkList])).2.1,
    (c7_no_entry_document [] ['g'] [] (by simp [walkList])).2.2⟩

/-! ### C10: /recent always advertises /play/<id>/index.html -/

/-- Static-serving resolution: does the relative component path name a file
of the extracted tree?  express.static under /play maps
/play/<id>/<relativePath> to the file at that exact path (index and
default-document resolution are disabled; name comparison on disk is
exact). -/
def fileExistsAt : List FsNode → List Name → Bool
  | _, [] => false
  | cs, [n] =>
    cs.any (fun node =>
      match node with
      | .file m => m == n
      | .dir _ _ => false)
  | cs, n :: rest =>
    cs.any (fun node =>
      match node with
      | .dir m cs2 => m == n && fileExistsAt cs2 rest
      | .file _ => false)

/-- Is some root-level child a file literally named "index.html"? -/
def rootIndexLiteral (cs : List FsNode) : Bool :=
  cs.any (fun node =>
    match node with
    | .file m => m == indexHtml
    | .dir _ _ => false)

theorem slash_mem_joinSegs {rel : List Name} (h : 2 ≤ rel.length) :
    '/' ∈ joinSegs rel := by
  rcases rel with _ | ⟨s1, _ | ⟨s2, rest⟩⟩
  · simp at h
  · simp at h
  · simp only [joinSegs]
    exact List.mem_append_right s1 (List.mem_cons_self '/' _)

theorem walk_found_file_exists :
    ∀ (tree : List FsNode) (rel : List Name),
      walkList tree = some rel → fileExistsAt tree rel = true := by
  intro tree
  induction tree using walkList.induct with
  | case1 => intro rel h; simp [walkList] at h
  | case2 n rest hidx =>
    intro rel h
    simp only [walkList, hidx, if_true, Option.some.injEq] at h
    subst h
    simp [fileExistsAt, List.any_cons]
  | case3 n rest hidx ih =>
    intro rel h
    have h' : isIndexName n = false := by simpa using hidx
    simp only [walkList, h', Bool.false_eq_true, if_false] at h
    have hrest := ih rel h
    rcases rel with _ | ⟨m, _ | ⟨m2, rel2⟩⟩
    · simp [fileExistsAt] at hrest
    · simp only [fileExistsAt, List.any_cons] at hrest ⊢
      simp [hrest]
    · simp only [fileExistsAt, List.any_cons] at hrest ⊢
      simp [hrest]
  | case4 n cs rest p hp ih =>
    intro rel h
    simp only [walkList, hp, Option.some.injEq] at h
    subst h
    have hcs := ih p hp
    rcases p with _ | ⟨q, qs⟩
    · simp [fileExistsAt] at hcs
    · simp only [fileExistsAt, List.any_cons] at hcs ⊢
      simp [hcs]
  | case5 n cs rest hp ih1 ih2 =>
    intro rel h
    simp only [walkList, hp] at h
    have hrest := ih2 rel h
    rcases rel with _ | ⟨m, _ | ⟨m2, rel2⟩⟩
    · simp [fileExistsAt] at hrest
    · simp only [fileExistsAt, List.any_cons] at hrest ⊢
      simp [hrest]
    · simp only [fileExistsAt, List.any_cons] at hrest ⊢
      simp [hrest]

/-- C10: every item of GET /recent carries the url "/play/" + id +
"/index.html", whatever the upload's entry document was; when the entry
document the walk located is nested (two or more components deep), that
listed url differs from the playUrl the publish answered — the playUrl names
a file that exists in the extracted tree, while /play/<id>/index.html
resolves to a root-level index.html, which does not exist when no root child
is a file of that exact name. -/
theorem c10_recent_url_fixed :
    (∀ (ents : List DirEnt) (it : RecentItem), it ∈ listRecent ents →
      it.url = recentUrl it.id) ∧
    (∀ (id : Name) (tree : List FsNode) (rel : List Name),
      walkList tree = some rel → 2 ≤ rel.length → playUrlOf id rel ≠ recentUrl id) ∧
    (∀ (tree : List FsNode) (rel : List Name),
      walkList tree = some rel → fileExistsAt tree rel = true) ∧
    (∀ tree : List FsNode, rootIndexLiteral tree = false →
      fileExistsAt tree [indexHtml] = false) := by
  refine ⟨?_, ?_, walk_found_file_exists, ?_⟩
  · intro ents it hmem
    obtain ⟨e, _, _, hshape⟩ := mem_listRecent_shape hmem
    rw [hshape]
  · intro id tree rel hwalk hlen heq
    unfold playUrlOf recentUrl at heq
    have h1 := List.append_cancel_left heq
    have h3 : joinSegs rel = indexHtml := by
      simpa using h1
    have := slash_mem_joinSegs hlen
    rw [h3] at this
    simp [indexHtml] at this
  · intro tree hroot
    simp only [fileExistsAt]
    simpa [rootIndexLiteral] using hroot

/-- Witness for c10_recent_url_fixed: the tree holding only sub/index.html is
located at the nested path [sub, index.html]; the publish answers
/play/g/sub/index.html, /recent lists /play/g/index.html, the two differ, the
nested file exists and the root-level index.html does not. -/
theorem c10_recent_url_fixed_witness :
    walkList [FsNode.dir ['s', 'u', 'b'] [FsNode.file indexHtml]] =
      some [['s', 'u', 'b'], indexHtml] ∧
    2 ≤ ([['s', 'u', 'b'], indexHtml] : List Name).length ∧
    playUrlOf ['g'] [['s', 'u', 'b'], indexHtml] ≠ recentUrl ['g'] ∧
    fileExistsAt [FsNode.dir ['s', 'u', 'b'] [FsNode.file indexHtml]]
      [['s', 'u', 'b'], indexHtml] = true ∧
    rootIndexLiteral [FsNode.dir ['s', 'u', 'b'] [FsNode.file indexHtml]] = false ∧
    fileExistsAt [FsNode.dir ['s', 'u', 'b'] [FsNode.file indexHtml]]
      [indexHtml] = false := by
  have hwalk : walkList [FsNode.dir ['s', 'u', 'b'] [FsNode.file indexHtml]] =
      some [['s', 'u', 'b'], indexHtml] := by
    have hidx : isIndexName indexHtml = true := by decide
    simp [walkList, hidx]
  refine ⟨hwalk, by decide, ?_, ?_, by decide, ?_⟩
  · exact c10_recent_url_fixed.2.1 ['g'] _ _ hwalk (by decide)
  · exact c10_recent_url_fixed.2.2.1 _ _ hwalk
  · exact c10_recent_url_fixed.2.2.2 _ (by decide)

end Filpbook
